import Mathlib

/-!
Verification development for the map_reducer repository (Go).

The three HTTP handlers of `src/main.go` (`/split`, `/map`, `/reduce`) are
embedded as pure Lean functions over an explicit blob-store state.  Each
handler returns the HTTP-level result (`Except Err _`), the list of blob-store
operations it performed, and the updated store.  Go runtime panics (negative
slice index in `parseS3`, out-of-range slice bounds in the split loop,
division by zero) are modelled as `Err.crash`; a failed S3 download (missing
object) is modelled as `Err.storeFail`.  Serialization is modelled structurally:
a stored object is either raw text (`Blob.str`) or a JSON-encoded count map
(`Blob.cmap`); `json.Unmarshal` into `map[string]int` is `parseCM`, which
fails on anything that is not a count map, matching the Go behaviour of
leaving the target map empty on a decode error.
-/

deriving instance DecidableEq for Except

namespace MapReducer

/-- A word-count mapping, Go `map[string]int`, modelled as an association list
whose key order records Go map insertion order; all counting code keeps keys
unique. -/
abbrev CountMap := List (String × Nat)

/-- A stored blob: either raw text bytes or a JSON-serialized count map. -/
inductive Blob where
  | str (s : String)
  | cmap (m : CountMap)
deriving DecidableEq

/-- An S3 address as (bucket, key). -/
abbrev Addr := String × String

/-- The blob store: an association list from address to blob, most recent
write first (a later `put` to the same address shadows the earlier one,
matching S3 last-writer-wins). -/
abbrev Store := List (Addr × Blob)

/-- Download an object, Go `downloader.Download`; `none` models a failed
download (missing object). -/
def Store.get : Store → Addr → Option Blob
  | [], _ => none
  | (a2, b) :: rest, a => if a2 = a then some b else Store.get rest a

/-- Upload an object, Go `uploader.Upload`; uploads always succeed in this
model. -/
def Store.put (st : Store) (a : Addr) (b : Blob) : Store :=
  (a, b) :: st

/-- A blob-store operation performed by a handler. -/
inductive Op where
  | get (a : Addr)
  | put (a : Addr) (b : Blob)
deriving DecidableEq

/-- How a handler call fails: `storeFail` is an S3 download error surfaced as
HTTP 500 (main.go lines 77-80, 137-140, 192-195); `crash` is a Go runtime
panic (parseS3 with no separator, slice bounds out of range, division by
zero). -/
inductive Err where
  | storeFail
  | crash
deriving DecidableEq

/-- Text content of a blob, Go `string(buf.Bytes())`.  A count-map blob reads
back as its JSON text; the encoding function is never inspected by any claim,
only that raw text is what `Blob.str` holds. -/
def encodeCountMap (m : CountMap) : String :=
  String.intercalate "," (m.map (fun p => p.1 ++ ":" ++ toString p.2))

def blobText : Blob → String
  | .str s => s
  | .cmap m => encodeCountMap m

/-- Go `json.Unmarshal(bytes, &m)` for `m : map[string]int`: succeeds exactly
on a serialized count map. -/
def parseCM : Blob → Option CountMap
  | .cmap m => some m
  | .str _ => none

/-! ## parseS3 (main.go lines 19-25)

```go
func parseS3(url string) (string, string) {
    trim := strings.TrimPrefix(url, "s3://")
    i := strings.IndexByte(trim, '/')
    return trim[:i], trim[i+1:]
}
```
When `trim` contains no `'/'`, `IndexByte` returns `-1` and `trim[:-1]`
panics at run time; that case is modelled as `none`. -/

/-- Split a character list at its first `'/'`: the part before it and the
part after it, or `none` when there is no `'/'` (Go: `IndexByte` = -1 and the
slice expression panics). -/
def splitAtSlash (cs : List Char) : Option (List Char × List Char) :=
  match cs.findIdx? (fun c => c == '/') with
  | none => none
  | some i => some (cs.take i, cs.drop (i + 1))

/-- Go `strings.TrimPrefix(url, "s3://")`: drop the 5-character prefix when
present. -/
def trimS3 (cs : List Char) : List Char :=
  if cs.take 5 = ("s3://").toList then cs.drop 5 else cs

def parseS3 (url : String) : Option (String × String) :=
  (splitAtSlash (trimS3 url.toList)).map (fun p => (p.1.asString, p.2.asString))

/-! ## Go strings helpers used by the handlers -/

/-- Go `strings.Split(content, "\n")` at character level: always returns at
least one (possibly empty) piece. -/
def splitNlChars : List Char → List (List Char)
  | [] => [[]]
  | c :: rest =>
    match splitNlChars rest with
    | [] => [[c]]
    | h :: t => if c = '\n' then [] :: h :: t else (c :: h) :: t

def splitNl (s : String) : List String :=
  (splitNlChars s.toList).map List.asString

/-- Go `strings.Join(lines, "\n")` at character level. -/
def joinNlChars : List (List Char) → List Char
  | [] => []
  | [l] => l
  | l :: ls => l ++ '\n' :: joinNlChars ls

def joinNl (ls : List String) : String :=
  (joinNlChars (ls.map String.toList)).asString

/-- Go `strings.ToLower` per character (the Unicode simple case mapping of
`unicode.ToLower`), modelled exactly on every code point that can matter to
alphanumeric tokenization: `A`-`Z` map to `a`-`z`, and the only two code
points outside ASCII whose simple lowercase is an ASCII character — U+0130
(LATIN CAPITAL LETTER I WITH DOT ABOVE, 304) and U+212A (KELVIN SIGN, 8490)
— map to `i` and `k`.  Every other character is left unchanged here; the
real mapping may move such a character within the non-ASCII range, but never
into `[A-Za-z0-9]`, so the alphanumeric runs of the lowercased text are
exactly those of this model's output. -/
def toLowerChar (c : Char) : Char :=
  if 65 ≤ c.toNat ∧ c.toNat ≤ 90 then Char.ofNat (c.toNat + 32)
  else if c.toNat = 304 then 'i'
  else if c.toNat = 8490 then 'k'
  else c

def goToLower (s : String) : String :=
  (s.toList.map toLowerChar).asString

/-- The character class of the mapper regexp `[A-Za-z0-9]+`. -/
def isAlnum (c : Char) : Bool :=
  decide ((48 ≤ c.toNat ∧ c.toNat ≤ 57) ∨ (65 ≤ c.toNat ∧ c.toNat ≤ 90) ∨
    (97 ≤ c.toNat ∧ c.toNat ≤ 122))

/-- Maximal runs of characters satisfying `p`, in order, separators dropped:
Go `regexp.FindAllString` for a character-class regexp such as
`[A-Za-z0-9]+`. -/
def runsP (p : Char → Bool) : List Char → List (List Char)
  | [] => []
  | c :: rest =>
    if p c then
      match rest, runsP p rest with
      | [], _ => [[c]]
      | d :: _, r =>
        if p d then
          match r with
          | h :: t => (c :: h) :: t
          | [] => [[c]]
        else [c] :: r
    else runsP p rest

/-- Maximal alphanumeric runs. -/
def runsAl (cs : List Char) : List (List Char) :=
  runsP isAlnum cs

/-- Mapper tokenization (main.go lines 145-148): lowercase the whole text,
then take all maximal `[A-Za-z0-9]+` matches. -/
def tokens (text : String) : List String :=
  (runsAl ((goToLower text).toList)).map List.asString

/-- Go `counts[w]++` on an association-list map: bump the existing entry or
append a fresh entry with count 1. -/
def incr : CountMap → String → CountMap
  | [], k => [(k, 1)]
  | (k2, v) :: rest, k =>
    if k2 = k then (k2, v + 1) :: rest else (k2, v) :: incr rest k

/-- The mapper counting loop (main.go lines 146-150). -/
def countOf (toks : List String) : CountMap :=
  toks.foldl incr []

/-- The count map the mapper computes for a chunk text. -/
def mapperCounts (text : String) : CountMap :=
  countOf (tokens text)

/-- Go map read with zero default: `total[k]` on the first matching entry. -/
def lookup0 : CountMap → String → Nat
  | [], _ => 0
  | (k2, v) :: rest, k => if k2 = k then v else lookup0 rest k

/-- Go `total[k] += v`: add `v` to the first entry for `k`, or append a fresh
entry. -/
def bump : CountMap → String → Nat → CountMap
  | [], k, v => [(k, v)]
  | (k2, v2) :: rest, k, v =>
    if k2 = k then (k2, v2 + v) :: rest else (k2, v2) :: bump rest k v

/-- The reducer inner loop `for k, v := range m { total[k] += v }`
(main.go lines 200-202). -/
def addInto (total : CountMap) : CountMap → CountMap
  | [] => total
  | (k, v) :: rest => addInto (bump total k v) rest

/-- The reducer fold over a list of partial count maps (main.go lines
183-203, with the store reads stripped out). -/
def reduceTotals (ms : List CountMap) : CountMap :=
  ms.foldl addInto []

/-- Total count carried by key `k` across all entries of a map (equals
`lookup0` when keys are unique). -/
def entrySum : CountMap → String → Nat
  | [], _ => 0
  | (k2, v) :: rest, k => (if k2 = k then v else 0) + entrySum rest k

/-- The count map the reducer extracts from one input address: parse the
address, download, decode; a decode failure leaves the Go target map empty
because the `json.Unmarshal` error is discarded (main.go line 198).  Only
meaningful when the address parses and the object exists. -/
def readCM (st : Store) (a : String) : CountMap :=
  match parseS3 a with
  | none => []
  | some bk =>
    match Store.get st bk with
    | none => []
    | some bl => (parseCM bl).getD []

/-! ## The split handler (main.go lines 50-114) -/

/-- Go slice expression `l[s:e]`: valid only when `0 ≤ s ≤ e ≤ len l`,
otherwise a runtime panic (`none`). -/
def goSlice (l : List α) (s e : Nat) : Option (List α) :=
  if s ≤ e ∧ e ≤ l.length then some ((l.drop s).take (e - s)) else none

/-- Output key prefix normalization, Go
`strings.TrimSuffix(prefix, "/") + "/"` (main.go line 97). -/
def normPfx (p : String) : String :=
  let cs := p.toList
  ((if cs.getLast? = some '/' then cs.dropLast else cs) ++ ['/']).asString

/-- The split upload loop (main.go lines 88-112): for each chunk index,
slice the lines (only the end bound is clamped to `len(lines)`, so a start
beyond the end panics), join with newlines, upload, and record the chunk
URL. -/
def splitLoop (bucket pfxn : String) (lines : List String) (cs : Nat) :
    Nat → Nat → Store → Except Err (List String) × List Op × Store
  | _, 0, st => (.ok [], [], st)
  | i, n + 1, st =>
    match goSlice lines (i * cs) (min ((i + 1) * cs) lines.length) with
    | none => (.error .crash, [], st)
    | some chunkLines =>
      let chunk := joinNl chunkLines
      let outKey := pfxn ++ "chunk-" ++ toString i ++ ".txt"
      let st2 := Store.put st (bucket, outKey) (.str chunk)
      match splitLoop bucket pfxn lines cs (i + 1) n st2 with
      | (res, ops, st3) =>
        (res.map (fun us => ("s3://" ++ bucket ++ "/" ++ outKey) :: us),
         .put (bucket, outKey) (.str chunk) :: ops, st3)

/-- The `/split` handler.  `partsQ` is the caller-supplied `parts` query
parameter; the Go code never reads it and uses the literal 3
(main.go line 63 `parts := 3`), which appears below as the part count and
inside the ceiling-division chunk size. -/
def splitHandler (st : Store) (inputS3 : String) (partsQ : Nat)
    (outPfx : String) : Except Err (List String) × List Op × Store :=
  match parseS3 inputS3 with
  | none => (.error .crash, [], st)
  | some (bucket, key) =>
    match Store.get st (bucket, key) with
    | none => (.error .storeFail, [.get (bucket, key)], st)
    | some blob =>
      match splitLoop bucket (normPfx outPfx) (splitNl (blobText blob))
          (((splitNl (blobText blob)).length + 3 - 1) / 3) 0 3 st with
      | (res, ops, st2) => (res, .get (bucket, key) :: ops, st2)

/-! ## The map handler (main.go lines 118-168) -/

/-- The `/map` handler: parse the chunk address, download, tokenize and
count, then parse the output address and upload the count map, echoing the
output address back. -/
def mapHandler (st : Store) (chunkS3 outS3 : String) :
    Except Err String × List Op × Store :=
  match parseS3 chunkS3 with
  | none => (.error .crash, [], st)
  | some (b, k) =>
    match Store.get st (b, k) with
    | none => (.error .storeFail, [.get (b, k)], st)
    | some blob =>
      let counts := mapperCounts (blobText blob)
      match parseS3 outS3 with
      | none => (.error .crash, [.get (b, k)], st)
      | some (ob, okey) =>
        (.ok outS3, [.get (b, k), .put (ob, okey) (.cmap counts)],
         Store.put st (ob, okey) (.cmap counts))

/-! ## The reduce handler (main.go lines 172-219) -/

/-- The reducer download-and-fold loop (main.go lines 185-203): for each
input address parse it, download the object (a failure aborts the call), and
fold the decoded map into the running total; a decode failure is silently
ignored because the `json.Unmarshal` error is discarded. -/
def reduceLoop (st : Store) : CountMap → List String →
    Except Err CountMap × List Op
  | total, [] => (.ok total, [])
  | total, a :: rest =>
    match parseS3 a with
    | none => (.error .crash, [])
    | some bk =>
      match Store.get st bk with
      | none => (.error .storeFail, [.get bk])
      | some bl =>
        let m := (parseCM bl).getD []
        match reduceLoop st (addInto total m) rest with
        | (res, ops) => (res, .get bk :: ops)

/-- The `/reduce` handler: fold all partials, then parse the output address
and upload the total, echoing the output address back. -/
def reduceHandler (st : Store) (inputs : List String) (outS3 : String) :
    Except Err String × List Op × Store :=
  match reduceLoop st [] inputs with
  | (.error e, ops) => (.error e, ops, st)
  | (.ok total, ops) =>
    match parseS3 outS3 with
    | none => (.error .crash, ops, st)
    | some (ob, okey) =>
      (.ok outS3, ops ++ [.put (ob, okey) (.cmap total)],
       Store.put st (ob, okey) (.cmap total))

/-! ## The pure chunk-slicing algorithm (main.go lines 86-94)

The slicing logic of the split loop, separated from the store I/O, and
parametric in the part count as the spec describes it. -/

/-- Chunk `i` through `i+n-1`: each is `lines[i*cs : min((i+1)*cs, len)]`,
a panic (`none`) when a start exceeds the clamped end. -/
def chunkSliceLoop (lines : List String) (cs : Nat) :
    Nat → Nat → Option (List (List String))
  | _, 0 => some []
  | i, n + 1 =>
    match goSlice lines (i * cs) (min ((i + 1) * cs) lines.length) with
    | none => none
    | some c => (chunkSliceLoop lines cs (i + 1) n).map (c :: ·)

/-- Split `lines` into `parts` chunks with the Go ceiling-division chunk
size; `parts = 0` is the Go division by zero panic. -/
def chunkSlices (lines : List String) (parts : Nat) :
    Option (List (List String)) :=
  if parts = 0 then none
  else chunkSliceLoop lines ((lines.length + parts - 1) / parts) 0 parts

/-- The whole pipeline at a requested part count, on the pure level: split
the text into chunks, run the mapper count on each chunk text, reduce all
partials. -/
def pipelineAt (text : String) (parts : Nat) : Option CountMap :=
  (chunkSlices (splitNl text) parts).map
    (fun chunks => reduceTotals (chunks.map (fun c => mapperCounts (joinNl c))))

/-! ## Concrete stores and inputs used by the claim evaluations -/

/-- Recognize an upload among the operations of a handler call. -/
def isPut : Op → Bool
  | .put _ _ => true
  | .get _ => false

/-- A six-line source document. -/
def docStore6 : Store := [(("b", "doc.txt"), .str "l1\nl2\nl3\nl4\nl5\nl6")]

/-- A one-line source document (no newline in the content). -/
def docStore1 : Store := [(("b", "doc.txt"), .str "hello")]

/-- A two-line source document. -/
def docStore2 : Store := [(("b", "doc.txt"), .str "a\nb")]

/-- The end-to-end example input of the spec. -/
def kingText : String := "The king. The king is dead. Long live the king!"

def kingStore : Store := [(("b", "doc.txt"), .str kingText)]

/-- Two reducer partials, the second of which is raw text that does not
decode as a count map. -/
def reduceStoreMixed : Store :=
  [(("b", "p1"), .cmap [("a", 2)]), (("b", "p2"), .str "not a count map")]

/-- A single well-formed reducer partial. -/
def reduceStoreOk : Store := [(("b", "p1"), .cmap [("a", 2)])]

/-- The chunk URLs of the successful split of `docStore2`. -/
def urlsC9 : List String :=
  ["s3://b/out/chunk-0.txt", "s3://b/out/chunk-1.txt", "s3://b/out/chunk-2.txt"]

/-- The operations of the successful split of `docStore2`. -/
def opsC9 : List Op :=
  [.get ("b", "doc.txt"),
   .put ("b", "out/chunk-0.txt") (.str "a"),
   .put ("b", "out/chunk-1.txt") (.str "b"),
   .put ("b", "out/chunk-2.txt") (.str "")]

/-- The store after the successful split of `docStore2`. -/
def stC9 : Store :=
  [(("b", "out/chunk-2.txt"), .str ""),
   (("b", "out/chunk-1.txt"), .str "b"),
   (("b", "out/chunk-0.txt"), .str "a"),
   (("b", "doc.txt"), .str "a\nb")]

/-! ## Claims -/

/-- C1: the claim says the splitter writes exactly `partCount` chunks and
returns their `partCount` addresses where `partCount` is supplied by the
caller.  Evaluating the handler on a six-line document with a requested part
count of 2 shows it writes three chunks and returns three addresses: the
`parts` query parameter is never read (main.go line 63 hardcodes
`parts := 3`), contradicting the spec and the repository driver script,
which passes `parts=$PARTS` and then reads back exactly `PARTS` chunks. -/
theorem C1_hardcoded_parts :
    (splitHandler docStore6 "s3://b/doc.txt" 2 "out").1 =
      .ok ["s3://b/out/chunk-0.txt", "s3://b/out/chunk-1.txt",
           "s3://b/out/chunk-2.txt"]
    ∧ ((splitHandler docStore6 "s3://b/doc.txt" 2 "out").2.1.filter isPut).length
        = 3 := by
  decide

/-- C4: the claim says that when the part count exceeds the number of lines
the call succeeds with trailing chunks persisted as empty strings.  On a
one-line document (3 parts > 1 line) the handler instead crashes: chunk 2
slices `lines[2:1]`, whose start bound is not clamped, a Go out-of-range
slice panic.  On a two-line document (3 parts > 2 lines) the intended
behaviour is visible: the call succeeds and the trailing chunk is persisted
as the empty string. -/
theorem C4_slice_crash :
    (splitHandler docStore1 "s3://b/doc.txt" 3 "out").1 = .error .crash
    ∧ (splitHandler docStore2 "s3://b/doc.txt" 3 "out").1 =
        .ok ["s3://b/out/chunk-0.txt", "s3://b/out/chunk-1.txt",
             "s3://b/out/chunk-2.txt"]
    ∧ Store.get (splitHandler docStore2 "s3://b/doc.txt" 3 "out").2.2
        ("b", "out/chunk-2.txt") = some (.str "") := by
  decide

/-- C2 fails on the code: the address `"s3:/bucket"` from the claim is not
rejected.  `parseS3` finds the `'/'` of `"s3:/"` and returns container
`"s3:"` with key `"bucket"`, and the split call then performs a store get
against that container — not zero store operations, and no parse error. -/
theorem C2_counterexample :
    parseS3 "s3:/bucket" = some ("s3:", "bucket")
    ∧ (splitHandler [] "s3:/bucket" 3 "out").2.1 = [Op.get ("s3:", "bucket")] := by
  decide

/-- C2 amended: only an address with no `'/'` at all (after trimming a
leading `"s3://"`) fails before any store operation, and the failure is a
runtime panic of `parseS3`, not a typed parse error; this covers the first
address each handler parses: the split source, the map chunk address, and
the first reduce input. -/
theorem C2_amended (st : Store) (url : String) (h : parseS3 url = none) :
    (∀ pq pfx, splitHandler st url pq pfx = (.error .crash, [], st))
    ∧ (∀ outS3, mapHandler st url outS3 = (.error .crash, [], st))
    ∧ (∀ rest outS3, reduceHandler st (url :: rest) outS3
        = (.error .crash, [], st)) := by
  refine ⟨fun pq pfx => ?_, fun outS3 => ?_, fun rest outS3 => ?_⟩
  · simp [splitHandler, h]
  · simp [mapHandler, h]
  · simp [reduceHandler, reduceLoop, h]

/-- Witness for C2 amended at the concrete slash-free address
`"s3://nokey"`. -/
theorem C2_witness :
    splitHandler [] "s3://nokey" 3 "out" = (.error .crash, [], [])
    ∧ mapHandler [] "s3://nokey" "s3://b/out" = (.error .crash, [], [])
    ∧ reduceHandler [] ["s3://nokey"] "s3://b/out" = (.error .crash, [], []) := by
  have h := C2_amended [] "s3://nokey" (by decide)
  exact ⟨h.1 3 "out", h.2.1 "s3://b/out", h.2.2 [] "s3://b/out"⟩

/-- C3 fails on the code: a partial that does not decode as a count map does
not abort the reduce call.  The `json.Unmarshal` error is discarded
(main.go line 198), the partial contributes nothing, the call succeeds, and
an aggregated total (from the remaining partials) is persisted at the final
address. -/
theorem C3_counterexample :
    (reduceHandler reduceStoreMixed ["s3://b/p1", "s3://b/p2"] "s3://b/final").1
      = .ok "s3://b/final"
    ∧ Store.get
        (reduceHandler reduceStoreMixed ["s3://b/p1", "s3://b/p2"] "s3://b/final").2.2
        ("b", "final") = some (.cmap [("a", 2)]) := by
  decide

/-- C8 fails on the code: the end-to-end input is a single line, the split
handler hardcodes 3 parts, and chunk 2 panics on an out-of-range slice, so
the pipeline produces no final mapping at all.  Moreover the text contains
three occurrences of "the", not the four the spec expects. -/
theorem C8_counterexample :
    (splitHandler kingStore "s3://b/doc.txt" 2 "splits").1 = .error .crash
    ∧ lookup0 (mapperCounts kingText) "the" = 3 := by
  decide

/-- C8 amended: with the chunk-slicing algorithm applied at the requested
part count of 2 (bypassing the hardcoded 3 and its slice panic), the
pipeline terminates and produces the mapping with "the" mapped to 3 — not 4
— and the other six expected counts. -/
theorem C8_amended :
    pipelineAt kingText 2 =
      some [("the", 3), ("king", 3), ("is", 1), ("dead", 1),
            ("long", 1), ("live", 1)] := by
  decide

/-- A fresh upload is the first thing a later download at the same address
finds. -/
theorem store_get_put (st : Store) (a : Addr) (b : Blob) :
    Store.get (Store.put st a b) a = some b := by
  simp [Store.put, Store.get]

/-- When every input address parses and its object exists, the reducer loop
succeeds and folds the decoded maps, in order, into the running total. -/
theorem reduceLoop_all_ok (st : Store) :
    ∀ (inputs : List String) (total : CountMap),
      (∀ a ∈ inputs, ∃ b k bl, parseS3 a = some (b, k)
        ∧ Store.get st (b, k) = some bl) →
      (reduceLoop st total inputs).1 =
        .ok (inputs.foldl (fun t a => addInto t (readCM st a)) total) := by
  intro inputs
  induction inputs with
  | nil => intro total _; rfl
  | cons a rest ih =>
    intro total h
    obtain ⟨b, k, bl, hp, hg⟩ := h a (List.mem_cons_self a rest)
    have hr : readCM st a = (parseCM bl).getD [] := by
      simp [readCM, hp, hg]
    simp only [reduceLoop, hp, hg, List.foldl_cons, hr]
    rcases hq : reduceLoop st (addInto total ((parseCM bl).getD [])) rest
      with ⟨res, ops⟩
    have h2 := ih (addInto total ((parseCM bl).getD []))
      (fun a2 ha2 => h a2 (List.mem_cons_of_mem a ha2))
    rw [hq] at h2
    simpa using h2

/-- When some input address parses to an address whose object is missing,
the reducer loop fails. -/
theorem reduceLoop_err (st : Store) :
    ∀ (inputs : List String) (total : CountMap),
      (∃ a ∈ inputs, ∃ b k, parseS3 a = some (b, k)
        ∧ Store.get st (b, k) = none) →
      ∃ e, (reduceLoop st total inputs).1 = .error e := by
  intro inputs
  induction inputs with
  | nil =>
    rintro total ⟨a, ha, -⟩
    exact absurd ha (List.not_mem_nil a)
  | cons a rest ih =>
    rintro total ⟨a2, ha2, b, k, hp, hg⟩
    rcases List.mem_cons.mp ha2 with rfl | hmem
    · exact ⟨.storeFail, by simp [reduceLoop, hp, hg]⟩
    · cases hph : parseS3 a with
      | none => exact ⟨.crash, by simp [reduceLoop, hph]⟩
      | some bk =>
        cases hgh : Store.get st bk with
        | none => exact ⟨.storeFail, by simp [reduceLoop, hph, hgh]⟩
        | some bl =>
          obtain ⟨e, he⟩ := ih (addInto total ((parseCM bl).getD []))
            ⟨a2, hmem, b, k, hp, hg⟩
          refine ⟨e, ?_⟩
          simp only [reduceLoop, hph, hgh]
          rcases hq : reduceLoop st (addInto total ((parseCM bl).getD [])) rest
            with ⟨res, ops⟩
          rw [hq] at he
          simpa using he

/-- C3 amended: an unreadable partial (failed download) aborts the whole
reduce call and nothing is written, but an undecodable partial does not
abort: its decode error is discarded, it contributes nothing, and the call
persists the aggregate of the decodable partials at the final address. -/
theorem C3_amended (st : Store) (inputs : List String)
    (outS3 outB outK : String) (hout : parseS3 outS3 = some (outB, outK)) :
    ((∃ a ∈ inputs, ∃ b k, parseS3 a = some (b, k)
        ∧ Store.get st (b, k) = none) →
      (∃ e, (reduceHandler st inputs outS3).1 = .error e)
      ∧ (reduceHandler st inputs outS3).2.2 = st)
    ∧ ((∀ a ∈ inputs, ∃ b k bl, parseS3 a = some (b, k)
        ∧ Store.get st (b, k) = some bl) →
      (reduceHandler st inputs outS3).1 = .ok outS3
      ∧ Store.get (reduceHandler st inputs outS3).2.2 (outB, outK)
        = some (.cmap (reduceTotals (inputs.map (readCM st))))) := by
  constructor
  · intro hbad
    obtain ⟨e, he⟩ := reduceLoop_err st inputs [] hbad
    rcases hq : reduceLoop st [] inputs with ⟨res, ops⟩
    rw [hq] at he
    simp only at he
    subst he
    constructor
    · exact ⟨e, by simp [reduceHandler, hq]⟩
    · simp [reduceHandler, hq]
  · intro hok
    have h1 := reduceLoop_all_ok st inputs [] hok
    rcases hq : reduceLoop st [] inputs with ⟨res, ops⟩
    rw [hq] at h1
    simp only at h1
    subst h1
    have hfold : inputs.foldl (fun t a => addInto t (readCM st a)) [] =
        reduceTotals (inputs.map (readCM st)) := by
      simp [reduceTotals, List.foldl_map]
    constructor
    · simp [reduceHandler, hq, hout]
    · simp [reduceHandler, hq, hout, hfold, store_get_put]

/-- Witness for C3 amended: one decodable partial, all inputs readable; the
call succeeds and the persisted total is the fold of the read maps. -/
theorem C3_witness :
    (reduceHandler reduceStoreOk ["s3://b/p1"] "s3://b/final").1
      = .ok "s3://b/final"
    ∧ Store.get (reduceHandler reduceStoreOk ["s3://b/p1"] "s3://b/final").2.2
        ("b", "final")
      = some (.cmap (reduceTotals (["s3://b/p1"].map (readCM reduceStoreOk)))) :=
  (C3_amended reduceStoreOk ["s3://b/p1"] "s3://b/final" "b" "final"
    (by decide)).2
    (by
      intro a ha
      simp only [List.mem_singleton] at ha
      subst ha
      exact ⟨"b", "p1", .cmap [("a", 2)], by decide, by decide⟩)

theorem goSlice_eq_some {α : Type} {l : List α} {s e : Nat} {c : List α}
    (h : goSlice l s e = some c) :
    s ≤ e ∧ e ≤ l.length ∧ c = (l.drop s).take (e - s) := by
  unfold goSlice at h
  split at h
  · rename_i hc
    exact ⟨hc.1, hc.2, by injection h with h2; exact h2.symm⟩
  · cases h

theorem chunkSliceLoop_length (lines : List String) (cs : Nat) :
    ∀ n i chunks, chunkSliceLoop lines cs i n = some chunks →
      chunks.length = n := by
  intro n
  induction n with
  | zero =>
    intro i chunks h
    simp only [chunkSliceLoop, Option.some.injEq] at h
    subst h
    rfl
  | succ m ih =>
    intro i chunks h
    simp only [chunkSliceLoop] at h
    cases hg : goSlice lines (i * cs) (min ((i + 1) * cs) lines.length) with
    | none => rw [hg] at h; cases h
    | some c =>
      rw [hg] at h
      cases hr : chunkSliceLoop lines cs (i + 1) m with
      | none => rw [hr] at h; cases h
      | some cr =>
        rw [hr] at h
        simp only [Option.map_some', Option.some.injEq] at h
        subst h
        simp [ih (i + 1) cr hr]

theorem chunkSliceLoop_bound (lines : List String) (cs : Nat) :
    ∀ n i chunks, chunkSliceLoop lines cs i n = some chunks →
      ∀ c ∈ chunks, c.length ≤ cs := by
  intro n
  induction n with
  | zero =>
    intro i chunks h
    simp only [chunkSliceLoop, Option.some.injEq] at h
    subst h
    simp
  | succ m ih =>
    intro i chunks h
    simp only [chunkSliceLoop] at h
    cases hg : goSlice lines (i * cs) (min ((i + 1) * cs) lines.length) with
    | none => rw [hg] at h; cases h
    | some c =>
      rw [hg] at h
      cases hr : chunkSliceLoop lines cs (i + 1) m with
      | none => rw [hr] at h; cases h
      | some cr =>
        rw [hr] at h
        simp only [Option.map_some', Option.some.injEq] at h
        subst h
        intro c2 hc2
        rcases List.mem_cons.mp hc2 with rfl | hmem
        · obtain ⟨hse, heL, hc⟩ := goSlice_eq_some hg
          subst hc
          have hsm : (i + 1) * cs = i * cs + cs := Nat.succ_mul i cs
          simp only [List.length_take, List.length_drop]
          omega
        · exact ih (i + 1) cr hr c2 hmem

theorem chunkSliceLoop_flatten (lines : List String) (cs : Nat) :
    ∀ n i chunks, chunkSliceLoop lines cs i n = some chunks →
      chunks.flatten =
        (lines.drop (i * cs)).take
          (min ((i + n) * cs) lines.length - i * cs) := by
  intro n
  induction n with
  | zero =>
    intro i chunks h
    simp only [chunkSliceLoop, Option.some.injEq] at h
    subst h
    simp
  | succ m ih =>
    intro i chunks h
    simp only [chunkSliceLoop] at h
    cases hg : goSlice lines (i * cs) (min ((i + 1) * cs) lines.length) with
    | none => rw [hg] at h; cases h
    | some c =>
      rw [hg] at h
      cases hr : chunkSliceLoop lines cs (i + 1) m with
      | none => rw [hr] at h; cases h
      | some cr =>
        rw [hr] at h
        simp only [Option.map_some', Option.some.injEq] at h
        subst h
        obtain ⟨hse, heL, hc⟩ := goSlice_eq_some hg
        have hjr := ih (i + 1) cr hr
        have hidx : i + (m + 1) = (i + 1) + m := by omega
        rw [hidx]
        have hb1 : (i + 1) * cs = i * cs + cs := Nat.succ_mul i cs
        by_cases hbL : (i + 1) * cs ≤ lines.length
        · have hminb : min ((i + 1) * cs) lines.length = (i + 1) * cs :=
            min_eq_left hbL
          have hbM : (i + 1) * cs ≤ min (((i + 1) + m) * cs) lines.length := by
            have h3 : (i + 1) * cs ≤ ((i + 1) + m) * cs :=
              Nat.mul_le_mul_right cs (by omega)
            omega
          rw [List.flatten_cons, hc, hjr, hminb]
          have hdd : lines.drop ((i + 1) * cs) =
              (lines.drop (i * cs)).drop ((i + 1) * cs - i * cs) := by
            rw [List.drop_drop]
            congr 1
            omega
          rw [hdd]
          have hsum : ((i + 1) * cs - i * cs) +
              (min (((i + 1) + m) * cs) lines.length - (i + 1) * cs) =
              min (((i + 1) + m) * cs) lines.length - i * cs := by
            omega
          rw [← hsum, List.take_add]
        · push_neg at hbL
          have hminb : min ((i + 1) * cs) lines.length = lines.length :=
            min_eq_right (Nat.le_of_lt hbL)
          cases m with
          | zero =>
            simp only [chunkSliceLoop, Option.some.injEq] at hr
            subst hr
            rw [List.flatten_cons, hc, hminb]
            simp only [List.flatten_nil, List.append_nil]
          | succ m2 =>
            exfalso
            simp only [chunkSliceLoop] at hr
            cases hg2 : goSlice lines ((i + 1) * cs)
                (min ((i + 1 + 1) * cs) lines.length) with
            | none => rw [hg2] at hr; cases hr
            | some c2 =>
              obtain ⟨hse2, -, -⟩ := goSlice_eq_some hg2
              have h4 : (i + 1) * cs ≤ lines.length :=
                le_trans hse2 (min_le_right _ _)
              omega

theorem parts_mul_cs_ge (L parts : Nat) (h : 1 ≤ parts) :
    L ≤ parts * ((L + parts - 1) / parts) := by
  have h1 := Nat.div_add_mod (L + parts - 1) parts
  have h2 : (L + parts - 1) % parts < parts := Nat.mod_lt _ (by omega)
  omega

/-- C5: when the chunk slicing of main.go lines 86-94 returns chunks (no
slice panic), the `parts` chunks partition the document exactly: there are
`parts` of them, their line counts sum to the number of lines, each has at
most the ceiling-division chunk size many lines, and concatenating them in
index order reproduces the original line sequence (so they are pairwise
disjoint contiguous slices). -/
theorem C5_split_completeness (lines : List String) (parts : Nat)
    (chunks : List (List String)) (h : chunkSlices lines parts = some chunks) :
    chunks.length = parts
    ∧ (chunks.map List.length).sum = lines.length
    ∧ (∀ c ∈ chunks, c.length ≤ (lines.length + parts - 1) / parts)
    ∧ chunks.flatten = lines := by
  unfold chunkSlices at h
  split at h
  · cases h
  · rename_i hp0
    have hp1 : 1 ≤ parts := Nat.one_le_iff_ne_zero.mpr hp0
    have hflat := chunkSliceLoop_flatten lines
      ((lines.length + parts - 1) / parts) parts 0 chunks h
    have hge := parts_mul_cs_ge lines.length parts hp1
    have hM : min ((0 + parts) * ((lines.length + parts - 1) / parts))
        lines.length = lines.length := by
      have h0 : (0 + parts) = parts := by omega
      rw [h0]
      omega
    have hflat2 : chunks.flatten = lines := by
      rw [hflat, hM]
      simp
    refine ⟨chunkSliceLoop_length _ _ parts 0 chunks h, ?_,
      chunkSliceLoop_bound _ _ parts 0 chunks h, hflat2⟩
    rw [← List.length_flatten, hflat2]

/-- Witness for C5 at a three-line document split into two chunks. -/
theorem C5_witness :
    chunkSlices ["a", "b", "c"] 2 = some [["a", "b"], ["c"]]
    ∧ ([["a", "b"], ["c"]] : List (List String)).flatten = ["a", "b", "c"] :=
  ⟨by decide,
   (C5_split_completeness ["a", "b", "c"] 2 [["a", "b"], ["c"]]
     (by decide)).2.2.2⟩

/-- A scalar value below the surrogate range round-trips through
`Char.ofNat`. -/
theorem char_toNat_ofNat {n : Nat} (h : n < 55296) :
    (Char.ofNat n).toNat = n := by
  rw [Char.ofNat, dif_pos (Or.inl h)]
  rfl

/-- On the ASCII range lowercasing preserves membership in the
`[A-Za-z0-9]` class; the two non-ASCII code points U+0130 and U+212A, whose
lowercase is an ASCII letter, are exactly where this fails. -/
theorem ascii_isAlnum_toLowerChar (c : Char) (ha : c.toNat < 128) :
    isAlnum (toLowerChar c) = isAlnum c := by
  unfold toLowerChar
  split
  · rename_i h
    have h2 : (Char.ofNat (c.toNat + 32)).toNat = c.toNat + 32 :=
      char_toNat_ofNat (by omega)
    simp only [isAlnum, h2]
    rw [decide_eq_decide]
    omega
  · split
    · rename_i h1 h2
      omega
    · split
      · rename_i h1 h2 h3
        omega
      · rfl

/-- Unfolding equation of `runsP` on a singleton. -/
theorem runsP_one (p : Char → Bool) (c : Char) :
    runsP p [c] = if p c then [[c]] else [] := rfl

/-- Unfolding equation of `runsP` on a list of two or more characters, with
the recursive occurrence kept folded. -/
theorem runsP_cons2 (p : Char → Bool) (c d : Char) (rest : List Char) :
    runsP p (c :: d :: rest) =
      if p c then
        (if p d then
          (match runsP p (d :: rest) with
           | h :: t => (c :: h) :: t
           | [] => [[c]])
         else [c] :: runsP p (d :: rest))
      else runsP p (d :: rest) := rfl

/-- A run scan starting on a matching character returns at least one run. -/
theorem runsP_ne_nil (p : Char → Bool) (d : Char) (l : List Char)
    (hd : p d = true) : runsP p (d :: l) ≠ [] := by
  cases l with
  | nil => simp [runsP_one, hd]
  | cons e rest =>
    rw [runsP_cons2, if_pos hd]
    by_cases he : p e
    · rw [if_pos he]
      cases hrec : runsP p (e :: rest) <;> simp
    · rw [if_neg he]
      simp

/-- Maximal-run extraction commutes with a character map that preserves the
class on every character of the list; for the mapper, lowercasing preserves
the alphanumeric class on ASCII text but not on U+0130 or U+212A. -/
theorem runsP_map (p : Char → Bool) (f : Char → Char) :
    ∀ l : List Char, (∀ c ∈ l, p (f c) = p c) →
      runsP p (l.map f) = (runsP p l).map (List.map f) := by
  intro l
  induction l with
  | nil =>
    intro _
    simp [runsP]
  | cons c rest ih =>
    intro hf
    have hfc : p (f c) = p c := hf c (List.mem_cons_self c rest)
    have ih2 := ih (fun x hx => hf x (List.mem_cons_of_mem _ hx))
    cases rest with
    | nil =>
      simp only [List.map_cons, List.map_nil, runsP_one, hfc]
      by_cases hc : p c <;> simp [hc]
    | cons d rest2 =>
      have hfd : p (f d) = p d :=
        hf d (List.mem_cons_of_mem _ (List.mem_cons_self d rest2))
      simp only [List.map_cons] at ih2 ⊢
      rw [runsP_cons2, runsP_cons2, hfc, hfd]
      by_cases hc : p c
      · rw [if_pos hc, if_pos hc]
        by_cases hd : p d
        · rw [if_pos hd, if_pos hd]
          obtain ⟨h, t, hrt⟩ : ∃ h t, runsP p (d :: rest2) = h :: t := by
            cases hx : runsP p (d :: rest2) with
            | nil => exact absurd hx (runsP_ne_nil p d rest2 hd)
            | cons h t => exact ⟨h, t, rfl⟩
          rw [hrt] at ih2
          rw [ih2, hrt]
          simp
        · rw [if_neg hd, if_neg hd, ih2]
          simp
      · rw [if_neg hc, if_neg hc]
        exact ih2

/-- On a text all of whose characters lowercase within their alphanumeric
class (in particular on any ASCII text), the code tokenization (lowercase
the whole text, then scan runs) equals the spec tokenization (scan runs of
the text, then lowercase each token). -/
theorem tokens_eq_spec (text : String)
    (h : ∀ c ∈ text.toList, isAlnum (toLowerChar c) = isAlnum c) :
    tokens text
      = (runsAl text.toList).map (fun r => (r.map toLowerChar).asString) := by
  unfold tokens runsAl goToLower
  rw [show ((text.toList.map toLowerChar).asString).toList
      = text.toList.map toLowerChar from rfl]
  rw [runsP_map isAlnum toLowerChar text.toList h]
  simp [List.map_map, Function.comp]

/-- One increment adds exactly one to the total of the counts. -/
theorem sum_snd_incr (m : CountMap) (k : String) :
    ((incr m k).map Prod.snd).sum = (m.map Prod.snd).sum + 1 := by
  induction m with
  | nil => simp [incr]
  | cons p rest ih =>
    obtain ⟨k2, v⟩ := p
    by_cases h : k2 = k
    · simp [incr, h]
      omega
    · simp [incr, h, ih]
      omega

/-- The keys after an increment are the old keys plus the incremented key. -/
theorem mem_keys_incr (m : CountMap) (k k2 : String) :
    k2 ∈ (incr m k).map Prod.fst ↔ k2 ∈ m.map Prod.fst ∨ k2 = k := by
  induction m with
  | nil => simp [incr]
  | cons p rest ih =>
    obtain ⟨k3, v⟩ := p
    by_cases h : k3 = k
    · subst h
      simp [incr]
      tauto
    · simp [incr, h, ih]
      tauto

/-- Incrementing keeps every count at least one. -/
theorem pos_of_mem_incr (m : CountMap) (k : String)
    (hm : ∀ q ∈ m, 1 ≤ q.2) : ∀ q ∈ incr m k, 1 ≤ q.2 := by
  induction m with
  | nil =>
    intro q hq
    simp [incr] at hq
    simp [hq]
  | cons p rest ih =>
    obtain ⟨k3, v⟩ := p
    intro q hq
    by_cases h : k3 = k
    · subst h
      simp only [incr, if_pos rfl] at hq
      rcases List.mem_cons.mp hq with rfl | hq2
      · simp
      · exact hm q (List.mem_cons_of_mem _ hq2)
    · simp only [incr, if_neg h] at hq
      rcases List.mem_cons.mp hq with rfl | hq2
      · exact hm _ (List.mem_cons_self _ _)
      · exact ih (fun q2 hq3 => hm q2 (List.mem_cons_of_mem _ hq3)) q hq2

/-- Incrementing preserves key uniqueness. -/
theorem nodup_keys_incr (m : CountMap) (k : String)
    (hm : (m.map Prod.fst).Nodup) : ((incr m k).map Prod.fst).Nodup := by
  induction m with
  | nil => simp [incr]
  | cons p rest ih =>
    obtain ⟨k3, v⟩ := p
    simp only [List.map_cons, List.nodup_cons] at hm
    by_cases h : k3 = k
    · subst h
      simpa [incr] using hm
    · simp only [incr, if_neg h, List.map_cons, List.nodup_cons]
      refine ⟨fun hc => ?_, ih hm.2⟩
      rcases (mem_keys_incr rest k k3).mp hc with h2 | h2
      · exact hm.1 h2
      · exact h h2

/-- Folding a token list over `incr` adds the token count to the totals. -/
theorem countFold_sum (toks : List String) :
    ∀ m : CountMap,
      ((toks.foldl incr m).map Prod.snd).sum
        = (m.map Prod.snd).sum + toks.length := by
  induction toks with
  | nil => simp
  | cons t rest ih =>
    intro m
    simp only [List.foldl_cons, List.length_cons, ih, sum_snd_incr]
    omega

/-- The keys after the counting fold are the initial keys plus the tokens. -/
theorem countFold_keys (toks : List String) :
    ∀ (m : CountMap) (k : String),
      k ∈ (toks.foldl incr m).map Prod.fst ↔ k ∈ m.map Prod.fst ∨ k ∈ toks := by
  induction toks with
  | nil => simp
  | cons t rest ih =>
    intro m k
    simp only [List.foldl_cons, ih, mem_keys_incr, List.mem_cons]
    tauto

/-- Every count produced by the counting fold is at least one. -/
theorem countFold_pos (toks : List String) :
    ∀ m : CountMap, (∀ q ∈ m, 1 ≤ q.2) →
      ∀ q ∈ toks.foldl incr m, 1 ≤ q.2 := by
  induction toks with
  | nil => exact fun m hm => hm
  | cons t rest ih =>
    intro m hm
    exact ih (incr m t) (pos_of_mem_incr m t hm)

/-- The counting fold preserves key uniqueness. -/
theorem countFold_nodup (toks : List String) :
    ∀ m : CountMap, (m.map Prod.fst).Nodup →
      ((toks.foldl incr m).map Prod.fst).Nodup := by
  induction toks with
  | nil => exact fun m hm => hm
  | cons t rest ih =>
    intro m hm
    exact ih (incr m t) (nodup_keys_incr m t hm)

/-- C6 fails on the code: because the whole text is lowercased before
tokenizing, a character whose lowercase is an ASCII letter can merge two
runs.  On the chunk `"AİB"` (U+0130 between two letters) the mapper yields
the single key `"aib"` with count 1, while the text's maximal alphanumeric
runs are `"A"` and `"B"`: the keys are not the distinct lowercased runs of
the text, and the values sum to 1, not to the 2 runs of the chunk. -/
theorem C6_counterexample :
    mapperCounts "AİB" = [("aib", 1)]
    ∧ (runsAl ("AİB").toList).map (fun r => (r.map toLowerChar).asString)
        = ["a", "b"]
    ∧ "aib" ∉ (runsAl ("AİB").toList).map
        (fun r => (r.map toLowerChar).asString)
    ∧ ((mapperCounts "AİB").map Prod.snd).sum ≠ (runsAl ("AİB").toList).length := by
  decide

/-- C6 amended: unconditionally, the mapper count map has as keys exactly
the distinct maximal alphanumeric runs of the LOWERCASED text (each key
once) and its values sum to the number of such runs; on ASCII text, where
lowercasing cannot merge or split runs, this yields the original claim:
the keys are exactly the distinct lowercased maximal alphanumeric runs of
the text and the values sum to the number of maximal alphanumeric runs of
the text. -/
theorem C6_amended (text : String) :
    (((mapperCounts text).map Prod.fst).Nodup
      ∧ (∀ k, k ∈ (mapperCounts text).map Prod.fst ↔
          k ∈ (runsAl (goToLower text).toList).map List.asString)
      ∧ ((mapperCounts text).map Prod.snd).sum
          = (runsAl (goToLower text).toList).length)
    ∧ ((∀ c ∈ text.toList, c.toNat < 128) →
      (∀ k, k ∈ (mapperCounts text).map Prod.fst ↔
        k ∈ (runsAl text.toList).map (fun r => (r.map toLowerChar).asString))
      ∧ ((mapperCounts text).map Prod.snd).sum = (runsAl text.toList).length) := by
  have htok : tokens text = (runsAl (goToLower text).toList).map List.asString :=
    rfl
  constructor
  · refine ⟨countFold_nodup (tokens text) [] (by simp), fun k => ?_, ?_⟩
    · rw [show mapperCounts text = countOf (tokens text) from rfl, countOf,
        countFold_keys, htok]
      simp
    · rw [show mapperCounts text = countOf (tokens text) from rfl, countOf,
        countFold_sum, htok]
      simp
  · intro hascii
    have hcls : ∀ c ∈ text.toList, isAlnum (toLowerChar c) = isAlnum c :=
      fun c hc => ascii_isAlnum_toLowerChar c (hascii c hc)
    have hspec := tokens_eq_spec text hcls
    constructor
    · intro k
      rw [show mapperCounts text = countOf (tokens text) from rfl, countOf,
        countFold_keys, hspec]
      simp
    · rw [show mapperCounts text = countOf (tokens text) from rfl, countOf,
        countFold_sum, hspec]
      simp

/-- Witness for C6 amended on the concrete ASCII chunk `"Ab1 cd Ab1"`. -/
theorem C6_witness :
    (∀ k, k ∈ (mapperCounts "Ab1 cd Ab1").map Prod.fst ↔
      k ∈ (runsAl ("Ab1 cd Ab1").toList).map
        (fun r => (r.map toLowerChar).asString))
    ∧ ((mapperCounts "Ab1 cd Ab1").map Prod.snd).sum
        = (runsAl ("Ab1 cd Ab1").toList).length :=
  (C6_amended "Ab1 cd Ab1").2 (by decide)

/-- C10: every value in the mapper count map is at least 1, and a key is
present exactly when it occurs among the chunk tokens. -/
theorem C10_positive_counts (text : String) :
    (∀ q ∈ mapperCounts text, 1 ≤ q.2)
    ∧ (∀ k, k ∈ (mapperCounts text).map Prod.fst ↔ k ∈ tokens text) := by
  constructor
  · exact countFold_pos (tokens text) [] (by simp)
  · intro k
    rw [show mapperCounts text = countOf (tokens text) from rfl, countOf,
      countFold_keys]
    simp

/-- Reading after a `bump` adds the bumped value at the bumped key. -/
theorem lookup0_bump (m : CountMap) (k k2 : String) (v : Nat) :
    lookup0 (bump m k v) k2 = lookup0 m k2 + (if k = k2 then v else 0) := by
  induction m with
  | nil =>
    simp only [bump, lookup0]
    by_cases h : k = k2 <;> simp [h]
  | cons p rest ih =>
    obtain ⟨k3, v3⟩ := p
    by_cases h3 : k3 = k
    · subst h3
      simp only [bump, if_pos rfl, lookup0]
      by_cases h2 : k3 = k2 <;> simp [h2]
    · simp only [bump, if_neg h3, lookup0]
      by_cases h2 : k3 = k2
      · subst h2
        have hkk : ¬ k = k3 := fun he => h3 he.symm
        simp [hkk]
      · simp [h2, ih]

/-- Folding one partial into the running total adds, per key, the partial's
total for that key. -/
theorem lookup0_addInto (m : CountMap) :
    ∀ (total : CountMap) (k : String),
      lookup0 (addInto total m) k = lookup0 total k + entrySum m k := by
  induction m with
  | nil => simp [addInto, entrySum]
  | cons p rest ih =>
    obtain ⟨k2, v⟩ := p
    intro total k
    simp only [addInto, entrySum]
    rw [ih, lookup0_bump]
    by_cases h : k2 = k <;> simp [h] <;> omega

/-- The reducer fold realizes, per key, the sum of the per-partial totals. -/
theorem lookup0_foldl_addInto (ms : List CountMap) :
    ∀ (init : CountMap) (k : String),
      lookup0 (ms.foldl addInto init) k
        = lookup0 init k + (ms.map (fun m => entrySum m k)).sum := by
  induction ms with
  | nil => simp
  | cons m rest ih =>
    intro init k
    simp only [List.foldl_cons, List.map_cons, List.sum_cons]
    rw [ih, lookup0_addInto]
    omega

/-- A key absent from a map contributes nothing. -/
theorem entrySum_eq_zero (m : CountMap) (k : String)
    (h : k ∉ m.map Prod.fst) : entrySum m k = 0 := by
  induction m with
  | nil => rfl
  | cons p rest ih =>
    obtain ⟨k2, v⟩ := p
    simp only [List.map_cons, List.mem_cons] at h
    push_neg at h
    simp only [entrySum, if_neg (Ne.symm h.1), ih h.2]

/-- For a map with unique keys the per-key total is the map read. -/
theorem entrySum_eq_lookup0 (m : CountMap) (k : String)
    (h : (m.map Prod.fst).Nodup) : entrySum m k = lookup0 m k := by
  induction m with
  | nil => rfl
  | cons p rest ih =>
    obtain ⟨k2, v⟩ := p
    simp only [List.map_cons, List.nodup_cons] at h
    by_cases h2 : k2 = k
    · subst h2
      have hz : entrySum rest k2 = 0 := entrySum_eq_zero rest k2 h.1
      simp [entrySum, lookup0, hz]
    · simp [entrySum, lookup0, h2, ih h.2]

/-- C7: for partials with unique keys (as every Go map has), the reducer
fold maps each key to the sum of that key's value across all partials (0
when absent), is invariant under permutation of the input list, and splits
additively over any partition of the list, so duplicated entries are counted
each time they appear. -/
theorem C7_reduce_additivity (ms ms2 : List CountMap) (k : String)
    (hnd : ∀ m ∈ ms, (m.map Prod.fst).Nodup) (hperm : ms.Perm ms2) :
    lookup0 (reduceTotals ms) k = (ms.map (fun m => lookup0 m k)).sum
    ∧ lookup0 (reduceTotals ms2) k = lookup0 (reduceTotals ms) k
    ∧ ∀ l1 l2, ms = l1 ++ l2 →
        lookup0 (reduceTotals ms) k
          = lookup0 (reduceTotals l1) k + lookup0 (reduceTotals l2) k := by
  have base : ∀ l : List CountMap,
      lookup0 (reduceTotals l) k = (l.map (fun m => entrySum m k)).sum := by
    intro l
    rw [reduceTotals, lookup0_foldl_addInto]
    simp [lookup0]
  refine ⟨?_, ?_, ?_⟩
  · rw [base]
    congr 1
    exact List.map_congr_left (fun m hm => entrySum_eq_lookup0 m k (hnd m hm))
  · rw [base, base]
    exact ((hperm.map (fun m => entrySum m k)).sum_eq).symm
  · rintro l1 l2 rfl
    rw [base, base, base]
    simp

/-- Witness for C7 on two concrete partials and their reversal. -/
theorem C7_witness :
    lookup0 (reduceTotals [[("a", 2)], [("b", 1), ("a", 3)]]) "a"
      = ([[("a", 2)], [("b", 1), ("a", 3)]].map
          (fun m => lookup0 m "a")).sum :=
  (C7_reduce_additivity [[("a", 2)], [("b", 1), ("a", 3)]]
    [[("b", 1), ("a", 3)], [("a", 2)]] "a"
    (by decide) (by decide)).1

/-- Characters strictly before the first found index do not match. -/
theorem findIdx_slash_no_slash :
    ∀ (cs : List Char) (i : Nat),
      cs.findIdx? (fun c => c == '/') = some i → '/' ∉ cs.take i := by
  intro cs
  induction cs with
  | nil => intro i h; simp [List.findIdx?] at h
  | cons c rest ih =>
    intro i h
    rw [List.findIdx?_cons] at h
    by_cases hc : (c == '/') = true
    · rw [if_pos hc] at h
      injection h with h2
      subst h2
      simp
    · rw [if_neg hc, List.findIdx?_succ] at h
      cases hr : rest.findIdx? (fun c => c == '/') with
      | none => rw [hr] at h; cases h
      | some j =>
        rw [hr] at h
        simp only [Option.map_some', Option.some.injEq] at h
        subst h
        simp only [List.take_succ_cons, List.mem_cons]
        push_neg
        refine ⟨fun he => hc (by simp [he.symm]), fun hm => (ih j hr) hm⟩

/-- The container returned by `parseS3` never contains a slash: it is
everything before the first slash of the trimmed address. -/
theorem parseS3_bucket_no_slash {url b k : String}
    (h : parseS3 url = some (b, k)) : '/' ∉ b.toList := by
  unfold parseS3 splitAtSlash at h
  cases hf : (trimS3 url.toList).findIdx? (fun c => c == '/') with
  | none => rw [hf] at h; cases h
  | some i =>
    rw [hf] at h
    simp only [Option.map_some', Option.some.injEq, Prod.mk.injEq] at h
    obtain ⟨hb, -⟩ := h
    have hbl : b.toList = (trimS3 url.toList).take i := by
      rw [← hb]
      rfl
    rw [hbl]
    exact findIdx_slash_no_slash _ i hf

/-- Finding the first slash after a slash-free block lands right after it. -/
theorem findIdx_slash_append (b k : List Char) (hb : '/' ∉ b) :
    (b ++ '/' :: k).findIdx? (fun c => c == '/') = some b.length := by
  induction b with
  | nil => simp [List.findIdx?_cons]
  | cons c rest ih =>
    have hc : ¬ (c == '/') = true := by
      simp only [beq_iff_eq]
      intro he
      exact hb (by simp [he])
    simp only [List.cons_append, List.findIdx?_cons]
    rw [if_neg hc, List.findIdx?_succ,
      ih (fun hm => hb (List.mem_cons_of_mem _ hm))]
    rfl

/-- Splitting a slash-free block glued to a slash and a tail recovers
both. -/
theorem splitAtSlash_append (b k : List Char) (hb : '/' ∉ b) :
    splitAtSlash (b ++ '/' :: k) = some (b, k) := by
  unfold splitAtSlash
  rw [findIdx_slash_append b k hb]
  have h1 : (b ++ '/' :: k).take b.length = b := List.take_left b ('/' :: k)
  have h2 : (b ++ '/' :: k).drop (b.length + 1) = k := by
    rw [← List.drop_drop, List.drop_left]
    rfl
  simp [h1, h2]

/-- Lists and strings round-trip. -/
theorem asString_toList (s : String) : s.toList.asString = s := rfl

/-- Parsing a URL assembled from a slash-free bucket and a key returns
exactly that bucket and key. -/
theorem parseS3_mkUrl (b k : String) (hb : '/' ∉ b.toList) :
    parseS3 ("s3://" ++ b ++ "/" ++ k) = some (b, k) := by
  unfold parseS3 trimS3
  have hdata : ("s3://" ++ b ++ "/" ++ k).toList
      = ("s3://").toList ++ (b.toList ++ '/' :: k.toList) := by
    simp only [String.toList, String.data_append, List.append_assoc]
    rfl
  rw [hdata]
  rw [if_pos (List.take_left' (by rfl))]
  have hdrop : (("s3://").toList ++ (b.toList ++ '/' :: k.toList)).drop 5
      = b.toList ++ '/' :: k.toList := by rfl
  rw [hdrop]
  rw [splitAtSlash_append _ _ hb]
  simp only [Option.map_some', Option.some.injEq, Prod.mk.injEq]
  exact ⟨rfl, rfl⟩

/-- Every upload the split loop performs targets the source bucket, and
every URL it returns parses back to the source bucket. -/
theorem splitLoop_buckets (bucket pfxn : String) (lines : List String)
    (cs : Nat) (hb : '/' ∉ bucket.toList) :
    ∀ n i st urls ops st2,
      splitLoop bucket pfxn lines cs i n st = (.ok urls, ops, st2) →
      (∀ a bl, Op.put a bl ∈ ops → a.1 = bucket)
      ∧ (∀ u ∈ urls, ∃ k2, parseS3 u = some (bucket, k2)) := by
  intro n
  induction n with
  | zero =>
    intro i st urls ops st2 h
    simp only [splitLoop, Prod.mk.injEq, Except.ok.injEq] at h
    obtain ⟨h1, h2, h3⟩ := h
    subst h1
    subst h2
    simp
  | succ m ih =>
    intro i st urls ops st2 h
    simp only [splitLoop] at h
    cases hg : goSlice lines (i * cs) (min ((i + 1) * cs) lines.length) with
    | none => simp only [hg] at h; simp at h
    | some chunkLines =>
      simp only [hg] at h
      rcases hq : splitLoop bucket pfxn lines cs (i + 1) m
          (Store.put st (bucket, pfxn ++ "chunk-" ++ toString i ++ ".txt")
            (.str (joinNl chunkLines))) with ⟨res, ops3, st3⟩
      simp only [hq] at h
      simp only [Prod.mk.injEq] at h
      obtain ⟨h1, h2, h3⟩ := h
      cases res with
      | error e => simp [Except.map] at h1
      | ok us =>
        simp only [Except.map] at h1
        injection h1 with h1
        obtain ⟨hput, hurl⟩ := ih (i + 1) _ us ops3 st3 hq
        subst h1
        subst h2
        constructor
        · intro a bl hmem
          rcases List.mem_cons.mp hmem with heq | hmem2
          · injection heq with ha hbl
            rw [ha]
          · exact hput a bl hmem2
        · intro u hu
          rcases List.mem_cons.mp hu with rfl | hu2
          · exact ⟨_, parseS3_mkUrl bucket _ hb⟩
          · exact hurl u hu2

/-- C9: a successful split call uploads every chunk into the container of
the parsed source address, and every returned chunk URL parses back to that
same container; the output prefix only shapes keys. -/
theorem C9_same_container (st : Store) (input : String) (pq : Nat)
    (pfx : String) (urls : List String) (ops : List Op) (st2 : Store)
    (bucket key : String) (hin : parseS3 input = some (bucket, key))
    (hrun : splitHandler st input pq pfx = (.ok urls, ops, st2)) :
    (∀ a bl, Op.put a bl ∈ ops → a.1 = bucket)
    ∧ (∀ u ∈ urls, ∃ k2, parseS3 u = some (bucket, k2)) := by
  have hb : '/' ∉ bucket.toList := parseS3_bucket_no_slash hin
  unfold splitHandler at hrun
  simp only [hin] at hrun
  cases hget : Store.get st (bucket, key) with
  | none => simp only [hget] at hrun; simp at hrun
  | some blob =>
    simp only [hget] at hrun
    rcases hq : splitLoop bucket (normPfx pfx) (splitNl (blobText blob))
        (((splitNl (blobText blob)).length + 3 - 1) / 3) 0 3 st
      with ⟨res, ops3, st3⟩
    simp only [hq] at hrun
    simp only [Prod.mk.injEq] at hrun
    obtain ⟨h1, h2, h3⟩ := hrun
    subst h1
    obtain ⟨hput, hurl⟩ := splitLoop_buckets bucket (normPfx pfx) _ _ hb
      3 0 st urls ops3 st3 hq
    subst h2
    refine ⟨?_, hurl⟩
    intro a bl hmem
    rcases List.mem_cons.mp hmem with heq | hm2
    · exact Op.noConfusion heq
    · exact hput a bl hm2

/-- Witness for C9 on the successful split of a two-line document. -/
theorem C9_witness :
    (∀ a bl, Op.put a bl ∈ opsC9 → a.1 = "b")
    ∧ (∀ u ∈ urlsC9, ∃ k2, parseS3 u = some ("b", k2)) :=
  C9_same_container docStore2 "s3://b/doc.txt" 3 "out" urlsC9 opsC9 stC9
    "b" "doc.txt" (by decide) (by decide)

end MapReducer
